import Mathlib

/-!
A verification development for the PaperBuddy repository.

The Python modules under `src/` are shallowly embedded as Lean functions:

* `src/src/extractors/pdf_extractor.py`   — `PDFExtractor` (structured pages,
  heading candidates, `extract_sections`, `extract_text`);
* `src/src/extractors/terminology_extractor.py` — `rank_terms_by_importance`;
* `src/src/extractors/section_scorer.py`  — `SectionScorer` (model scoring,
  user feedback, combined scoring, important sentences, similarity).

Python `dict`s are modelled as association lists in insertion order, with the
Python update semantics (assigning to an existing key keeps its position,
assigning to a fresh key appends at the end).  Python's stable sorts
(`sorted`, `list.sort`, `heapq.nlargest`) are modelled by a stable insertion
sort `sortStable`.  Floats are modelled by `ℚ`; the one place where the code
can produce a float NaN (a cosine with a zero denominator) is modelled
explicitly by `SimValue.nan`.  The external neural network (tokenizer and
transformer embeddings) is not code of this repository; it enters the
embedding as an abstract parameter (`sim`, `EmbedModel`).
-/

/-! ## Python-like primitives -/

/-- Python dict assignment `d[k] = v` on an association list: an existing key
is overwritten in place, a new key is appended at the end. -/
def dictSet {α : Type} [BEq α] {β : Type} : List (α × β) → α → β → List (α × β)
  | [], k, v => [(k, v)]
  | (k', v') :: rest, k, v =>
    if k' == k then (k, v) :: rest else (k', v') :: dictSet rest k v

/-- Deduplication keeping first occurrences, with an explicit `seen` list. -/
def dedupSeen {α : Type} [BEq α] (seen : List α) : List α → List α
  | [] => []
  | a :: rest =>
    if seen.contains a then dedupSeen seen rest
    else a :: dedupSeen (seen ++ [a]) rest

/-- The distinct elements of a list in first-occurrence order (the order a
Python `dict`/`Counter` built from the list would report its keys). -/
def dedupFirst {α : Type} [BEq α] (l : List α) : List α := dedupSeen [] l

/-- One step of a stable insertion sort: `x` (arriving after everything in
`l`) is placed before the first element it strictly precedes. -/
def insertStable {α : Type} (lt : α → α → Bool) (x : α) : List α → List α
  | [] => [x]
  | y :: rest => if lt x y then x :: y :: rest else y :: insertStable lt x rest

/-- Stable sort with respect to the strict comparison `lt`; for a strict weak
order this is extensionally the unique stable sort, hence it models Python's
`sorted` / `list.sort` / `heapq.nlargest` (all stable). -/
def sortStable {α : Type} (lt : α → α → Bool) (l : List α) : List α :=
  l.foldl (fun acc x => insertStable lt x acc) []

/-- Python `str.lower()`: ASCII case folding (every string the repository
lowers is ASCII). -/
def pyLower (s : String) : String := String.mk (s.data.map Char.toLower)

/-- Python `str.strip()` with no argument: drop leading and trailing
whitespace. -/
def pyTrim (s : String) : String :=
  String.mk (((s.data.dropWhile Char.isWhitespace).reverse.dropWhile Char.isWhitespace).reverse)

/-- Python `text.split('.')`: split at every dot, keeping empty pieces. -/
def pySplitDot (s : String) : List String :=
  (List.splitOnP (fun c => c == '.') s.data).map String.mk

/-- Python `sep.join(pieces)`. -/
def pyJoin (sep : String) : List String → String
  | [] => ""
  | [x] => x
  | x :: y :: rest => x ++ sep ++ pyJoin sep (y :: rest)

/-- Python `str.split()` with no argument: split on whitespace runs and drop
empty pieces. -/
def pyWords (s : String) : List String :=
  ((List.splitOnP Char.isWhitespace s.data).map String.mk).filter (fun w => w ≠ "")

/-- `sub` is an initial segment of `s` (on character lists). -/
def startsWithList : List Char → List Char → Bool
  | [], _ => true
  | _ :: _, [] => false
  | a :: as, b :: bs => a == b && startsWithList as bs

/-- Count non-overlapping occurrences of a non-empty pattern `sub` in `s`,
scanning left to right and skipping the matched block, as Python `str.count`
does.  The `fuel` argument (instantiated with the initial scan length) makes
the recursion structural; every step consumes at least one character, so the
result does not depend on the fuel as long as `s.length ≤ fuel`. -/
def countSubAux (sub : List Char) : Nat → List Char → Nat
  | _, [] => 0
  | 0, _ => 0
  | fuel + 1, c :: rest =>
    if startsWithList sub (c :: rest) then
      1 + countSubAux sub fuel (rest.drop (sub.length - 1))
    else
      countSubAux sub fuel rest

/-- Python `s.count(sub)`: non-overlapping occurrence count; an empty pattern
matches at every position, giving `len(s) + 1`. -/
def pyStrCount (s sub : String) : Nat :=
  if sub.isEmpty then s.length + 1 else countSubAux sub.data s.data.length s.data

/-- Python `sub in s` substring membership. -/
def pyContains (s sub : String) : Bool := pyStrCount s sub ≠ 0

/-! ## `pdf_extractor.py`: data model

`extract_structured_text` turns a loaded PyMuPDF document into pages of text
blocks; each block holds lines, each line holds spans carrying a text string,
a font name and a font size.  The embedding takes that structured view as the
document datum, together with each page's plain `get_text()` output (which
has its own layout and is not reconstructible from the dict view). -/

/-- A bounding box `[x0, y0, x1, y1]` as used by PyMuPDF. -/
structure BBox where
  x0 : ℚ
  y0 : ℚ
  x1 : ℚ
  y1 : ℚ
deriving DecidableEq

/-- One span of `page.get_text("dict")`: a text run with font data. -/
structure Span where
  text : String
  font : String
  size : ℚ
deriving DecidableEq

/-- One line of a text block. -/
structure Line where
  spans : List Span
  bbox : BBox
deriving DecidableEq

/-- One text block (blocks without a `"lines"` key are image blocks and are
already filtered out by `extract_structured_text`). -/
structure Block where
  bbox : BBox
  lines : List Line
deriving DecidableEq

/-- One page: its text blocks from the dict extraction and its plain
`page.get_text()` string. -/
structure Page where
  blocks : List Block
  raw : String
deriving DecidableEq

/-- A loaded PDF document. -/
structure PDFDocument where
  pages : List Page
deriving DecidableEq

/-- The `line_text` assembled by `extract_structured_text`: the concatenation
of the line's span texts. -/
def Line.text (l : Line) : String := String.join (l.spans.map Span.text)

/-- The `list(line_sizes)` of `extract_structured_text`: the line's span
sizes as a Python `set`.  A set's iteration order is implementation defined;
it is modelled as first-occurrence order, which every use downstream
(multiset of values, `any`, `max`) is insensitive to. -/
def Line.sizes (l : Line) : List ℚ := dedupFirst (l.spans.map Span.size)

/-! ## `pdf_extractor.py`: heading identification and section extraction -/

/-- `all_sizes` of `identify_potential_headings`: every line's size set,
flattened over blocks and pages. -/
def allSizes (structuredPages : List (List Block)) : List ℚ :=
  ((structuredPages.flatten.map (fun b => b.lines.map Line.sizes)).flatten).flatten

/-- `max(set(all_sizes), key=all_sizes.count)`: among the distinct sizes, the
one with the greatest multiplicity; Python's `max` keeps the earlier element
on ties, so ties go to the first element in (modelled) set order. -/
def mostCommonSize (sizes : List ℚ) : ℚ :=
  match dedupFirst sizes with
  | [] => 0
  | a :: rest =>
    rest.foldl (fun best x => if List.count best sizes < List.count x sizes then x else best) a

/-- The largest element of a list of sizes (`max(line["sizes"])`); only ever
used on non-empty lists. -/
def listMaxQ : List ℚ → ℚ
  | [] => 0
  | a :: rest => rest.foldl max a

/-- A potential heading as collected by `identify_potential_headings`. -/
structure Heading where
  page : Nat
  text : String
  size : ℚ
  bbox : BBox
deriving DecidableEq

/-- `identify_potential_headings`: a line is a candidate when any of its font
sizes exceeds 1.1 times the most common size of the document. -/
def identifyPotentialHeadings (structuredPages : List (List Block)) : List Heading :=
  if structuredPages.isEmpty then []
  else
    let sizes := allSizes structuredPages
    if sizes.isEmpty then []
    else
      let headingThreshold := mostCommonSize sizes * (11 / 10)
      let ofLine := fun (pageIdx : Nat) (line : Line) =>
        ({ page := pageIdx, text := line.text, size := listMaxQ line.sizes,
           bbox := line.bbox } : Heading)
      let ofBlock := fun (pageIdx : Nat) (block : Block) =>
        (block.lines.filter
            (fun line => line.sizes.any (fun s => decide (headingThreshold < s)))).map
          (ofLine pageIdx)
      (structuredPages.enum.map
        (fun pageIdx => (pageIdx.2.map (ofBlock pageIdx.1)).flatten)).flatten

/-- The comparison of `sorted(potential_headings, key=lambda h: (h["page"],
h["bbox"][1]))`: strictly earlier page, or same page and strictly smaller
top coordinate. -/
def headingLT (h1 h2 : Heading) : Bool :=
  decide (h1.page < h2.page) || (h1.page == h2.page && decide (h1.bbox.y0 < h2.bbox.y0))

/-- The sorted heading list (Python's `sorted` is stable). -/
def sortHeadings (hs : List Heading) : List Heading := sortStable headingLT hs

/-- `extract_text`: the concatenation of every page's `get_text()` output. -/
def extractText (doc : PDFDocument) : String :=
  doc.pages.foldl (fun acc p => acc ++ p.raw) ""

/-- The text a single line contributes to a section body: each span's text
followed by a space, then a newline after the line. -/
def lineOut (line : Line) : String :=
  (line.spans.foldl (fun acc sp => acc ++ sp.text ++ " ") "") ++ "\n"

/-- The text of the lines of a page's blocks that pass the positional filter
`keep`, in document order. -/
def pageLinesOut (blocks : List Block) (keep : Line → Bool) : String :=
  blocks.foldl
    (fun acc b =>
      b.lines.foldl (fun acc2 line => if keep line then acc2 ++ lineOut line else acc2) acc)
    ""

/-- The page used when an index is out of range; unreachable for headings
produced by `identifyPotentialHeadings`. -/
def defaultPage : Page := { blocks := [], raw := "" }

/-- One page's contribution to a section body in `extract_sections`: the
starting page is filtered to lines below the heading (`y0 ≥ start_y`), the
ending page (when the upper bound is finite, `end_y != inf`) to lines above
the next heading (`y1 ≤ end_y`), and any other page contributes its full
`get_text()` output.  The branches are tested in this order, so a section
whose heading page equals its end page is only filtered at the start side,
exactly as in the source. -/
def pageContribution (doc : PDFDocument) (startPage : Nat) (startY : ℚ) (endPage : Nat)
    (endY : Option ℚ) (pageNum : Nat) : String :=
  let page := doc.pages.getD pageNum defaultPage
  if pageNum = startPage then
    pageLinesOut page.blocks (fun line => decide (startY ≤ line.bbox.y0))
  else
    match endY with
    | some ey =>
      if pageNum = endPage then pageLinesOut page.blocks (fun line => decide (line.bbox.y1 ≤ ey))
      else page.raw
    | none => page.raw

/-- The body text of the section opened by `cur`: from the bottom of `cur`'s
box to the top of the next heading's box (`next?`), or to the end of the
document when `cur` is the last heading (`end_y = inf`), finally stripped. -/
def sectionText (doc : PDFDocument) (cur : Heading) (next? : Option Heading) : String :=
  let startPage := cur.page
  let startY := cur.bbox.y1
  let endPage := match next? with
    | none => doc.pages.length - 1
    | some nh => nh.page
  let endY : Option ℚ := match next? with
    | none => none
    | some nh => some nh.bbox.y0
  pyTrim
    ((List.range' startPage (endPage + 1 - startPage)).foldl
      (fun acc pageNum => acc ++ pageContribution doc startPage startY endPage endY pageNum)
      "")

/-- The main loop of `extract_sections` over the sorted headings: a heading
whose stripped text is empty is skipped (`continue`), every other heading
stores its section body under its stripped text; the section's end boundary
is always the next heading in the sorted list, skipped or not. -/
def sectionsLoop (doc : PDFDocument) : List Heading → List (String × String) → List (String × String)
  | [], acc => acc
  | h :: rest, acc =>
    let headingText := pyTrim h.text
    if headingText = "" then sectionsLoop doc rest acc
    else sectionsLoop doc rest (dictSet acc headingText (sectionText doc h rest.head?))

/-- `extract_sections` on a loaded document: with no heading candidates at
all the whole text becomes the single `"Document"` section, otherwise the
sorted headings are processed by `sectionsLoop`. -/
def extractSections (doc : PDFDocument) : List (String × String) :=
  let structuredPages := doc.pages.map Page.blocks
  let sortedHeadings := sortHeadings (identifyPotentialHeadings structuredPages)
  if sortedHeadings.isEmpty then [("Document", extractText doc)]
  else sectionsLoop doc sortedHeadings []

/-! ## `terminology_extractor.py`: `rank_terms_by_importance` -/

/-- An entry of the ranked-term list: `{"term": term, "score": count}`. -/
structure RankedTerm where
  term : String
  score : Nat
deriving DecidableEq

/-- The `Counter` built by `rank_terms_by_importance`:
`term_counts[term] = text.lower().count(term.lower())` for each candidate.
A `Counter` is a dict, so a repeated candidate overwrites its (identical)
count in place and keys stay in first-occurrence order. -/
def termCountsOf (text : String) (candidateTerms : List String) : List (String × Nat) :=
  candidateTerms.foldl
    (fun acc term => dictSet acc term (pyStrCount (pyLower text) (pyLower term))) []

/-- Strict comparison "strictly larger count", so that a stable sort by it is
a descending stable sort by count. -/
def cntLT (a b : String × Nat) : Bool := decide (b.2 < a.2)

/-- `Counter.most_common(n)`: the count-descending stable sort of the entries
(`heapq.nlargest` is documented as `sorted(items, key=count, reverse=True)[:n]`,
which is stable), truncated to `n`. -/
def mostCommon (n : Nat) (items : List (String × Nat)) : List (String × Nat) :=
  (sortStable cntLT items).take n

/-- `rank_terms_by_importance(text, candidate_terms, top_n)`: count each
candidate's case-insensitive occurrences in the text, take the `top_n` most
common, and package them as `{"term": ..., "score": ...}` records.  (The
`self.nlp(text)` call of the source computes a SpaCy doc that is never used.) -/
def rankTermsByImportance (text : String) (candidateTerms : List String) (topN : Nat) :
    List RankedTerm :=
  (mostCommon topN (termCountsOf text candidateTerms)).map
    (fun tc => { term := tc.1, score := tc.2 })

/-! ## `section_scorer.py`: feedback store -/

/-- The per-paper dict inside `user_feedback`.  The code reads and writes only
its `"section_scores"` key, whose value is a dict from section title to score;
`sectionScores = none` models the key being absent. -/
structure PaperEntry where
  sectionScores : Option (List (String × ℚ))
deriving DecidableEq

/-- The in-memory `self.user_feedback` store: paper id → per-paper dict. -/
abbrev Feedback := List (String × PaperEntry)

/-- The outcome of the underlying file write attempted by
`_save_user_feedback` (the environment decides whether `json.dump` raises). -/
inductive WriteOutcome where
  | ok : WriteOutcome
  | error : String → WriteOutcome
deriving DecidableEq

/-- The raw `json.dump` write: succeeds or raises, per the environment. -/
def writeFeedbackFile (w : WriteOutcome) : Except String Unit :=
  match w with
  | .ok => .ok ()
  | .error e => .error e

/-- `_save_user_feedback`: the write runs inside `try/except`; a failure is
printed (`Error saving user feedback`) and swallowed, so the function returns
nothing in both cases. -/
def saveUserFeedback (w : WriteOutcome) : Unit :=
  match writeFeedbackFile w with
  | .ok _ => ()
  | .error _ => ()

/-- The in-memory state update of `add_user_feedback`: create the paper dict
and its `"section_scores"` dict when missing, then assign the score under the
section title. -/
def updateFeedback (fb : Feedback) (paperId sectionTitle : String) (score : ℚ) : Feedback :=
  let entry := (fb.lookup paperId).getD { sectionScores := none }
  let sectionScores := entry.sectionScores.getD []
  dictSet fb paperId { sectionScores := some (dictSet sectionScores sectionTitle score) }

/-- `add_user_feedback`: update the in-memory store, attempt the persistent
save (whose failure is swallowed by `_save_user_feedback`), and return `True`.
The result is the returned boolean together with the new store. -/
def addUserFeedback (fb : Feedback) (w : WriteOutcome) (paperId sectionTitle : String)
    (score : ℚ) : Bool × Feedback :=
  let fb' := updateFeedback fb paperId sectionTitle score
  let _ := saveUserFeedback w
  (true, fb')

/-- The rating the store holds for `(paperId, sectionTitle)`, if any. -/
def storedRating (fb : Feedback) (paperId sectionTitle : String) : Option ℚ :=
  match fb.lookup paperId with
  | none => none
  | some entry =>
    match entry.sectionScores with
    | none => none
    | some sectionScores => sectionScores.lookup sectionTitle

/-! ## `section_scorer.py`: similarity and embeddings

The tokenizer and the transformer are external models, not code of this
repository; they enter as the abstract fields of `EmbedModel`.  The only
branch the repository's own code adds is the empty-token zero vector of
`_get_embedding`. -/

/-- A float result of `compute_similarity`: either a NaN (produced by a `0/0`
cosine) or an ordinary value. -/
inductive SimValue where
  | nan : SimValue
  | val : ℚ → SimValue
deriving DecidableEq

/-- The external models behind `_get_embedding` / `compute_similarity`:
the tokenizer's `encode` (after truncation), the transformer's CLS-token
embedding, and the real-valued cosine `dot/(‖·‖·‖·‖)` of two embeddings,
abstracted because its value is irrational in general; `computeSimilarity`
only invokes it when the denominator is non-zero. -/
structure EmbedModel where
  encode : String → List Nat
  cls : String → List ℚ
  cosine : List ℚ → List ℚ → ℚ

/-- `_get_embedding`: a text whose token encoding is empty gets the defined
zero vector `np.zeros(768)`; any other text gets the model's CLS embedding. -/
def getEmbedding (m : EmbedModel) (text : String) : List ℚ :=
  if (m.encode text).isEmpty then List.replicate 768 0 else m.cls text

/-- The dot product of two embeddings. -/
def dotList (a b : List ℚ) : ℚ := (List.zipWith (fun x y => x * y) a b).sum

/-- The squared Euclidean norm; over the reals `‖a‖ = 0 ↔ normSq a = 0`, so
this decides exactly when the cosine's denominator vanishes. -/
def normSq (a : List ℚ) : ℚ := dotList a a

/-- `compute_similarity`: `np.dot(e1, e2) / (norm(e1) * norm(e2))`.  When
either norm is zero the numerator is also zero (the zero-norm vector is the
zero vector), so numpy evaluates `0.0/0.0` and the float result is NaN; with
both norms non-zero the result is the ordinary cosine value. -/
def computeSimilarity (m : EmbedModel) (text1 text2 : String) : SimValue :=
  let e1 := getEmbedding m text1
  let e2 := getEmbedding m text2
  if normSq e1 = 0 ∨ normSq e2 = 0 then SimValue.nan
  else SimValue.val (m.cosine e1 e2)

/-! ## `section_scorer.py`: model scoring

`score_sections_model` consumes `compute_similarity` only through well-scoring
sections, and the claims about it quantify over the external model; it is
therefore parameterized directly by the similarity function
`sim : String → String → ℚ` (the value `compute_similarity` returns on the
abstract-vs-section pair). -/

/-- A sections dict: title → body text, in insertion order. -/
abbrev Sections := List (String × String)

/-- The abstract-resolution cascade of `score_sections_model`: the given
abstract if supplied, else the first section whose title contains
`"abstract"` (case-insensitively), else the first whose title contains
`"introduction"`, else the first section's text, else nothing. -/
def resolveAbstract (sections : Sections) (abstract : Option String) : Option String :=
  match abstract with
  | some a => some a
  | none =>
    match sections.find? (fun kv => pyContains (pyLower kv.1) "abstract") with
    | some kv => some kv.2
    | none =>
      match sections.find? (fun kv => pyContains (pyLower kv.1) "introduction") with
      | some kv => some kv.2
      | none => sections.head?.map (fun kv => kv.2)

/-- The keyword list of the no-abstract heuristic. -/
def methodKeywords : List String :=
  ["method", "result", "conclusion", "discussion", "finding",
   "contribution", "evaluation", "experiment"]

/-- One keyword's contribution in the no-abstract heuristic: `+0.2` when the
keyword occurs in the lowered title, a further `+0.1` when it occurs in the
lowered body. -/
def keywordStep (title text : String) (acc : ℚ) (kw : String) : ℚ :=
  let acc1 := if pyContains (pyLower title) kw then acc + 2 / 10 else acc
  if pyContains (pyLower text) kw then acc1 + 1 / 10 else acc1

/-- The keyword score accumulated over all keywords. -/
def keywordScore (title text : String) : ℚ :=
  methodKeywords.foldl (keywordStep title text) 0

/-- Method 2 of `score_sections_model` (no usable abstract): sections under
ten words score `0.0`; the rest score `min(position_score + keyword_score, 1.0)`
with `position_score = 1.0`. -/
def method2Scores (sections : Sections) : List (String × ℚ) :=
  sections.map
    (fun kv =>
      (kv.1, if (pyWords kv.2).length < 10 then 0 else min (1 + keywordScore kv.1 kv.2) 1))

/-- The pre-normalization scores of `score_sections_model`: when the resolved
abstract is truthy (present and non-empty), sections under ten words score
`0.0` and the rest score their similarity to the abstract; otherwise the
keyword heuristic applies. -/
def rawModelScores (sim : String → String → ℚ) (sections : Sections)
    (abstract : Option String) : List (String × ℚ) :=
  match resolveAbstract sections abstract with
  | some a =>
    if a = "" then method2Scores sections
    else
      sections.map
        (fun kv => (kv.1, if (pyWords kv.2).length < 10 then 0 else sim a kv.2))
  | none => method2Scores sections

/-- `max(scores.values())` for a non-empty score dict. -/
def valuesMax : List (String × ℚ) → ℚ
  | [] => 0
  | kv :: rest => rest.foldl (fun m x => max m x.2) kv.2

/-- `score_sections_model`: the raw scores, renormalized by the maximum
observed score when the dict is non-empty and that maximum is positive. -/
def scoreSectionsModel (sim : String → String → ℚ) (sections : Sections)
    (abstract : Option String) : List (String × ℚ) :=
  let scores := rawModelScores sim sections abstract
  if scores.isEmpty then scores
  else
    let maxScore := valuesMax scores
    if 0 < maxScore then scores.map (fun kv => (kv.1, kv.2 / maxScore)) else scores

/-! ## `section_scorer.py`: feedback scoring and combination -/

/-- `score_sections_user_feedback`: when the store has a `"section_scores"`
dict for the paper, each section gets its stored rating or the neutral `0.5`;
otherwise every section gets `0.5`. -/
def scoreSectionsUserFeedback (fb : Feedback) (paperId : String) (sections : Sections) :
    List (String × ℚ) :=
  match fb.lookup paperId with
  | some entry =>
    match entry.sectionScores with
    | some feedbackScores =>
      sections.map (fun kv => (kv.1, (feedbackScores.lookup kv.1).getD (1 / 2)))
    | none => sections.map (fun kv => (kv.1, (1 : ℚ) / 2))
  | none => sections.map (fun kv => (kv.1, (1 : ℚ) / 2))

/-- A combined score entry: the averaged score and its contributing sources. -/
structure ScoreEntry where
  score : ℚ
  sources : List (String × ℚ)
deriving DecidableEq

/-- The per-title combination step of `score_sections`: collect the enabled
sources that cover the title, average them, or fall back to the default. -/
def combineEntry (modelScores feedbackScores : List (String × ℚ)) (useModel useFeedback : Bool)
    (title : String) : ScoreEntry :=
  let s1 : List (String × ℚ) :=
    if useModel then
      match modelScores.lookup title with
      | some v => [("model", v)]
      | none => []
    else []
  let s2 : List (String × ℚ) :=
    if useFeedback then
      match feedbackScores.lookup title with
      | some v => [("feedback", v)]
      | none => []
    else []
  let scoreSources := s1 ++ s2
  if scoreSources.isEmpty then { score := 1 / 2, sources := [("default", 1 / 2)] }
  else { score := (scoreSources.map (fun kv => kv.2)).sum / scoreSources.length,
         sources := scoreSources }

/-- `score_sections`: model scores and feedback scores are computed when the
respective flag is set, then combined title by title over the input sections. -/
def scoreSections (sim : String → String → ℚ) (fb : Feedback) (paperId : String)
    (sections : Sections) (abstract : Option String) (useModel useFeedback : Bool) :
    List (String × ScoreEntry) :=
  let modelScores := if useModel then scoreSectionsModel sim sections abstract else []
  let feedbackScores := if useFeedback then scoreSectionsUserFeedback fb paperId sections else []
  sections.map
    (fun kv => (kv.1, combineEntry modelScores feedbackScores useModel useFeedback kv.1))

/-! ## `section_scorer.py`: `get_important_sentences` -/

/-- The sentence list of `get_important_sentences`: split on `'.'`, strip,
keep the pieces longer than ten characters. -/
def sentencesOf (text : String) : List String :=
  ((pySplitDot text).map pyTrim).filter (fun s => decide (10 < s.length))

/-- Strict comparison "strictly larger similarity" for the stable descending
sort of `sentence_scores.sort(key=lambda x: x[1], reverse=True)`. -/
def simLT (a b : String × ℚ) : Bool := decide (b.2 < a.2)

/-- `get_important_sentences`: with at most `top_n` sentences they are all
returned as they are; otherwise sentences under five words are skipped, the
rest are scored by similarity to the joined full text, sorted by score
descending (stably) and the first `top_n` are returned.  `sim a b` abstracts
the embedding-and-cosine composite applied to the pair. -/
def getImportantSentences (sim : String → String → ℚ) (text : String) (topN : Nat) :
    List String :=
  let sentences := sentencesOf text
  if sentences.length ≤ topN then sentences
  else
    let fullText := pyJoin " " sentences
    let sentenceScores :=
      (sentences.filter (fun s => decide (5 ≤ (pyWords s).length))).map
        (fun s => (s, sim fullText s))
    ((sortStable simLT sentenceScores).take topN).map Prod.fst

/-! ## Concrete inputs used by the closed theorems -/

/-- A body line of the all-whitespace-heading document: ordinary 10pt text. -/
def bodyLine1 : Line :=
  { spans := [{ text := "body text here", font := "F", size := 10 }],
    bbox := { x0 := 0, y0 := 50, x1 := 100, y1 := 60 } }

/-- A second 10pt body line, making 10 the most common font size. -/
def bodyLine2 : Line :=
  { spans := [{ text := "more body text", font := "F", size := 10 }],
    bbox := { x0 := 0, y0 := 70, x1 := 100, y1 := 80 } }

/-- A 12pt line whose text is pure whitespace: it clears the 1.1 × 10 = 11
heading threshold, so it is a heading candidate, but its stripped text is
empty. -/
def headLine : Line :=
  { spans := [{ text := "   ", font := "F", size := 12 }],
    bbox := { x0 := 0, y0 := 10, x1 := 100, y1 := 20 } }

/-- A one-page document whose only heading candidate is whitespace-only. -/
def docEx : PDFDocument :=
  { pages := [{ blocks := [{ bbox := { x0 := 0, y0 := 0, x1 := 100, y1 := 100 },
                             lines := [headLine, bodyLine1, bodyLine2] }],
                raw := "body text\n" }] }

/-- A document with no pages (hence no heading candidates). -/
def docEmpty : PDFDocument := { pages := [] }

/-- An external-model instance whose tokenizer encodes the empty string to no
tokens and every other string to a CLS/SEP pair. -/
def embEx : EmbedModel :=
  { encode := fun s => if s = "" then [] else [101, 102]
  , cls := fun _ => List.replicate 768 1
  , cosine := fun _ _ => 1 }

/-- A constant similarity function for instantiating model-scoring claims. -/
def simHalf : String → String → ℚ := fun _ _ => 1 / 2

/-- A constant similarity function for instantiating sentence-ranking claims. -/
def simZero : String → String → ℚ := fun _ _ => 0

/-- A two-section paper for the model-scoring witness. -/
def sectionsEx : Sections :=
  [("Abstract", "a b c d e f g h i j k"), ("Intro", "short")]

/-- A two-section paper for the feedback round-trip witness. -/
def sectionsFb : Sections := [("Intro", "intro text"), ("Methods", "methods text")]

/-! ## Lemmas: dict updates -/

/-- Looking up the key just assigned returns the assigned value. -/
theorem lookup_dictSet_self {β : Type} (l : List (String × β)) (k : String) (v : β) :
    (dictSet l k v).lookup k = some v := by
  induction l with
  | nil => simp [dictSet, List.lookup]
  | cons kv rest ih =>
    obtain ⟨k', v'⟩ := kv
    simp only [dictSet]
    by_cases h : k' = k
    · subst h
      simp [List.lookup]
    · have hb : (k' == k) = false := beq_eq_false_iff_ne.mpr h
      have hb' : (k == k') = false := beq_eq_false_iff_ne.mpr (Ne.symm h)
      rw [if_neg (by simp [hb])]
      simp only [List.lookup, hb']
      exact ih

/-- Assigning one key leaves every other key's lookup unchanged. -/
theorem lookup_dictSet_ne {β : Type} (l : List (String × β)) (k k' : String) (v : β)
    (h : k' ≠ k) : (dictSet l k v).lookup k' = l.lookup k' := by
  induction l with
  | nil => simp [dictSet, List.lookup, beq_eq_false_iff_ne.mpr h]
  | cons kv rest ih =>
    obtain ⟨k₀, v₀⟩ := kv
    simp only [dictSet]
    by_cases h0 : k₀ = k
    · subst h0
      simp [List.lookup, beq_eq_false_iff_ne.mpr h]
    · rw [if_neg (by simpa using h0)]
      by_cases hk : (k' == k₀) = true
      · simp [List.lookup, hk]
      · have hb : (k' == k₀) = false := by simpa using hk
        simp [List.lookup, hb, ih]

/-- Every element of an updated dict is an old element or the new pair. -/
theorem mem_dictSet {β : Type} {l : List (String × β)} {k : String} {v : β} {e : String × β}
    (h : e ∈ dictSet l k v) : e ∈ l ∨ e = (k, v) := by
  induction l with
  | nil => simpa [dictSet] using h
  | cons kv rest ih =>
    obtain ⟨k', v'⟩ := kv
    simp only [dictSet] at h
    by_cases h0 : k' == k
    · rw [if_pos h0] at h
      rcases List.mem_cons.1 h with h1 | h1
      · exact Or.inr h1
      · exact Or.inl (List.mem_cons_of_mem _ h1)
    · rw [if_neg (by simpa using h0)] at h
      rcases List.mem_cons.1 h with h1 | h1
      · exact Or.inl (h1 ▸ List.mem_cons_self _ _)
      · rcases ih h1 with h2 | h2
        · exact Or.inl (List.mem_cons_of_mem _ h2)
        · exact Or.inr h2

/-- The key list after an assignment: unchanged when the key was present,
extended at the end when it was new. -/
theorem keys_dictSet {β : Type} (l : List (String × β)) (k : String) (v : β) :
    (dictSet l k v).map Prod.fst =
      if (l.map Prod.fst).contains k then l.map Prod.fst else l.map Prod.fst ++ [k] := by
  induction l with
  | nil => simp [dictSet]
  | cons kv rest ih =>
    obtain ⟨k', v'⟩ := kv
    simp only [dictSet]
    by_cases h0 : k' = k
    · subst h0
      simp [List.contains_cons]
    · rw [if_neg (by simpa using h0)]
      simp only [List.map_cons, List.contains_cons]
      have hne : (k == k') = false := by simpa using Ne.symm h0
      rw [hne]
      simp only [Bool.false_or]
      by_cases hc : (rest.map Prod.fst).contains k
      · rw [ih, if_pos hc, if_pos hc]
      · rw [ih, if_neg hc, if_neg hc]
        simp

/-! ## Lemmas: the stable sort -/

/-- Membership in an insertion. -/
theorem mem_insertStable {α : Type} (lt : α → α → Bool) (x : α) (l : List α) (a : α) :
    a ∈ insertStable lt x l ↔ a = x ∨ a ∈ l := by
  induction l with
  | nil => simp [insertStable]
  | cons y rest ih =>
    simp only [insertStable]
    by_cases h : lt x y = true
    · rw [if_pos h]
      simp [List.mem_cons]
    · rw [if_neg h]
      simp only [List.mem_cons, ih]
      tauto

/-- Inserting is a permutation of consing. -/
theorem insertStable_perm {α : Type} (lt : α → α → Bool) (x : α) (l : List α) :
    (insertStable lt x l).Perm (x :: l) := by
  induction l with
  | nil => simp [insertStable]
  | cons y rest ih =>
    simp only [insertStable]
    by_cases h : lt x y = true
    · rw [if_pos h]
    · rw [if_neg h]
      exact (ih.cons y).trans (List.Perm.swap x y rest)

/-- The fold of insertions permutes the accumulator and the input. -/
theorem sortStable_fold_perm {α : Type} (lt : α → α → Bool) (l acc : List α) :
    (l.foldl (fun acc x => insertStable lt x acc) acc).Perm (acc ++ l) := by
  induction l generalizing acc with
  | nil => simp
  | cons x xs ih =>
    simp only [List.foldl_cons]
    refine ((ih (insertStable lt x acc)).trans ?_)
    refine (List.Perm.append_right xs (insertStable_perm lt x acc)).trans ?_
    exact List.perm_middle.symm

/-- The stable sort permutes its input. -/
theorem sortStable_perm {α : Type} (lt : α → α → Bool) (l : List α) :
    (sortStable lt l).Perm l := by
  simpa using sortStable_fold_perm lt l []

/-- Inserting into a list sorted by `fun a b => lt b a = false` keeps it
sorted, provided `lt` is transitive and asymmetric. -/
theorem pairwise_insertStable {α : Type} {lt : α → α → Bool}
    (htrans : ∀ a b c, lt a b = true → lt b c = true → lt a c = true)
    (hasym : ∀ a b, lt a b = true → lt b a = false)
    (x : α) {l : List α} (hl : l.Pairwise (fun a b => lt b a = false)) :
    (insertStable lt x l).Pairwise (fun a b => lt b a = false) := by
  induction l with
  | nil => simp [insertStable]
  | cons y rest ih =>
    rw [List.pairwise_cons] at hl
    obtain ⟨hy, hrest⟩ := hl
    simp only [insertStable]
    by_cases h : lt x y = true
    · rw [if_pos h]
      refine List.Pairwise.cons ?_ (List.Pairwise.cons hy hrest)
      intro z hz
      rcases List.mem_cons.1 hz with rfl | hz
      · exact hasym x z h
      · by_contra hzx
        have hzx' : lt z x = true := by
          cases hzxv : lt z x
          · exact absurd hzxv hzx
          · rfl
        have : lt z y = true := htrans z x y hzx' h
        rw [hy z hz] at this
        exact Bool.false_ne_true this
    · rw [if_neg h]
      refine List.Pairwise.cons ?_ (ih hrest)
      intro z hz
      rcases (mem_insertStable lt x rest z).1 hz with rfl | hz
      · cases hv : lt z y
        · rfl
        · exact absurd hv h
      · exact hy z hz

/-- The fold of insertions sorts, starting from a sorted accumulator. -/
theorem pairwise_sortStable_fold {α : Type} {lt : α → α → Bool}
    (htrans : ∀ a b c, lt a b = true → lt b c = true → lt a c = true)
    (hasym : ∀ a b, lt a b = true → lt b a = false)
    (l : List α) (acc : List α) (hacc : acc.Pairwise (fun a b => lt b a = false)) :
    (l.foldl (fun acc x => insertStable lt x acc) acc).Pairwise (fun a b => lt b a = false) := by
  induction l generalizing acc with
  | nil => exact hacc
  | cons x xs ih =>
    exact ih (insertStable lt x acc) (pairwise_insertStable htrans hasym x hacc)

/-- The stable sort is sorted: any earlier element is not strictly preceded
by a later one. -/
theorem pairwise_sortStable {α : Type} {lt : α → α → Bool}
    (htrans : ∀ a b c, lt a b = true → lt b c = true → lt a c = true)
    (hasym : ∀ a b, lt a b = true → lt b a = false)
    (l : List α) :
    (sortStable lt l).Pairwise (fun a b => lt b a = false) :=
  pairwise_sortStable_fold htrans hasym l [] (List.Pairwise.nil)

/-! ## Lemmas: stability of the count-descending sort -/

/-- `cntLT` is transitive. -/
theorem cntLT_trans (a b c : String × Nat) (hab : cntLT a b = true) (hbc : cntLT b c = true) :
    cntLT a c = true := by
  simp only [cntLT, decide_eq_true_eq] at hab hbc ⊢
  omega

/-- `cntLT` is asymmetric. -/
theorem cntLT_asymm (a b : String × Nat) (hab : cntLT a b = true) : cntLT b a = false := by
  simp only [cntLT, decide_eq_true_eq, decide_eq_false_iff_not] at hab ⊢
  omega

/-- Inserting an entry with a different count does not disturb the entries of
a given count. -/
theorem filter_insertStable_cnt_ne (c : Nat) (x : String × Nat) (l : List (String × Nat))
    (hx : x.2 ≠ c) :
    (insertStable cntLT x l).filter (fun e => decide (e.2 = c)) =
      l.filter (fun e => decide (e.2 = c)) := by
  induction l with
  | nil => simp [insertStable, List.filter, hx]
  | cons y rest ih =>
    simp only [insertStable]
    by_cases h : cntLT x y = true
    · rw [if_pos h]
      simp [List.filter_cons, hx]
    · rw [if_neg h]
      simp only [List.filter_cons]
      rw [ih]

/-- Inserting an entry of count `c` into a count-sorted list puts it after
all existing entries of count `c`. -/
theorem filter_insertStable_cnt_eq (c : Nat) (x : String × Nat) (l : List (String × Nat))
    (hx : x.2 = c) (hl : l.Pairwise (fun a b => cntLT b a = false)) :
    (insertStable cntLT x l).filter (fun e => decide (e.2 = c)) =
      l.filter (fun e => decide (e.2 = c)) ++ [x] := by
  induction l with
  | nil => simp [insertStable, List.filter, hx]
  | cons y rest ih =>
    rw [List.pairwise_cons] at hl
    obtain ⟨hy, hrest⟩ := hl
    simp only [insertStable]
    by_cases h : cntLT x y = true
    · rw [if_pos h]
      have hyc : y.2 < c := by
        have := h
        simp only [cntLT, decide_eq_true_eq, hx] at this
        exact this
      have hall : (y :: rest).filter (fun e => decide (e.2 = c)) = [] := by
        rw [List.filter_eq_nil_iff]
        intro z hz
        rcases List.mem_cons.1 hz with rfl | hz2
        · simp only [decide_eq_true_eq]
          omega
        · have hzy := hy z hz2
          simp only [cntLT, decide_eq_false_iff_not, not_lt] at hzy
          simp only [decide_eq_true_eq]
          omega
      rw [List.filter_cons_of_pos (by simp [hx]), hall]
      simp
    · rw [if_neg h]
      simp only [List.filter_cons]
      rw [ih hrest]
      split_ifs <;> simp

/-- The fold of insertions preserves, per count, the original entry order
(with the accumulator's entries first). -/
theorem filter_sortStable_cnt_fold (c : Nat) (l acc : List (String × Nat))
    (hacc : acc.Pairwise (fun a b => cntLT b a = false)) :
    (l.foldl (fun acc x => insertStable cntLT x acc) acc).filter (fun e => decide (e.2 = c)) =
      acc.filter (fun e => decide (e.2 = c)) ++ l.filter (fun e => decide (e.2 = c)) := by
  induction l generalizing acc with
  | nil => simp
  | cons x xs ih =>
    simp only [List.foldl_cons]
    rw [ih (insertStable cntLT x acc) (pairwise_insertStable cntLT_trans cntLT_asymm x hacc)]
    by_cases hx : x.2 = c
    · rw [filter_insertStable_cnt_eq c x acc hx hacc]
      simp [List.filter_cons, hx, List.append_assoc]
    · rw [filter_insertStable_cnt_ne c x acc hx]
      simp [List.filter_cons, hx]

/-- Stability of the count-descending sort: restricted to any one count, the
sorted list is exactly the original list. -/
theorem filter_sortStable_cnt (c : Nat) (l : List (String × Nat)) :
    (sortStable cntLT l).filter (fun e => decide (e.2 = c)) =
      l.filter (fun e => decide (e.2 = c)) := by
  simpa using filter_sortStable_cnt_fold c l [] List.Pairwise.nil

/-! ## Lemmas: maxima of score dicts -/

/-- A fold of `max` only grows its seed. -/
theorem foldl_max_init_le (l : List (String × ℚ)) (init : ℚ) :
    init ≤ l.foldl (fun m x => max m x.2) init := by
  induction l generalizing init with
  | nil => simp
  | cons y rest ih =>
    simp only [List.foldl_cons]
    exact le_trans (le_max_left init y.2) (ih (max init y.2))

/-- Every member's value is below the fold of `max`. -/
theorem mem_le_foldl_max {l : List (String × ℚ)} {kv : String × ℚ} (h : kv ∈ l) (init : ℚ) :
    kv.2 ≤ l.foldl (fun m x => max m x.2) init := by
  induction l generalizing init with
  | nil => simp at h
  | cons y rest ih =>
    simp only [List.foldl_cons]
    rcases List.mem_cons.1 h with rfl | h2
    · exact le_trans (le_max_right init kv.2) (foldl_max_init_le rest _)
    · exact ih h2 _

/-- The fold of `max` is the seed or one of the values. -/
theorem foldl_max_eq_init_or_mem (l : List (String × ℚ)) (init : ℚ) :
    l.foldl (fun m x => max m x.2) init = init ∨
      ∃ kv ∈ l, l.foldl (fun m x => max m x.2) init = kv.2 := by
  induction l generalizing init with
  | nil => exact Or.inl rfl
  | cons y rest ih =>
    simp only [List.foldl_cons]
    rcases ih (max init y.2) with h | ⟨kv, hkv, he⟩
    · rcases max_choice init y.2 with hm | hm
      · exact Or.inl (h.trans hm)
      · exact Or.inr ⟨y, List.mem_cons_self y rest, h.trans hm⟩
    · exact Or.inr ⟨kv, List.mem_cons_of_mem y hkv, he⟩

/-- Every value of a score dict is at most its `valuesMax`. -/
theorem le_valuesMax {l : List (String × ℚ)} {kv : String × ℚ} (h : kv ∈ l) :
    kv.2 ≤ valuesMax l := by
  cases l with
  | nil => simp at h
  | cons y rest =>
    simp only [valuesMax]
    rcases List.mem_cons.1 h with rfl | h2
    · exact foldl_max_init_le rest kv.2
    · exact mem_le_foldl_max h2 y.2

/-- The `valuesMax` of a non-empty score dict is attained. -/
theorem valuesMax_mem {l : List (String × ℚ)} (h : l ≠ []) :
    ∃ kv ∈ l, valuesMax l = kv.2 := by
  cases l with
  | nil => exact absurd rfl h
  | cons y rest =>
    simp only [valuesMax]
    rcases foldl_max_eq_init_or_mem rest y.2 with h2 | ⟨kv, hkv, he⟩
    · exact ⟨y, List.mem_cons_self y rest, h2⟩
    · exact ⟨kv, List.mem_cons_of_mem y hkv, he⟩

/-- Dividing each value by a positive constant divides the fold of `max`. -/
theorem foldl_max_map_div (rest : List (String × ℚ)) (i m : ℚ) (hm : 0 < m) :
    (rest.map (fun kv => (kv.1, kv.2 / m))).foldl (fun a x => max a x.2) (i / m) =
      (rest.foldl (fun a x => max a x.2) i) / m := by
  induction rest generalizing i with
  | nil => simp
  | cons y ys ih =>
    simp only [List.map_cons, List.foldl_cons]
    rw [show max (i / m) (y.2 / m) = max i y.2 / m from max_div_div_right hm.le i y.2]
    exact ih (max i y.2)

/-- Dividing each value by a positive constant divides the `valuesMax`. -/
theorem valuesMax_map_div (l : List (String × ℚ)) (m : ℚ) (hm : 0 < m) :
    valuesMax (l.map (fun kv => (kv.1, kv.2 / m))) = valuesMax l / m := by
  cases l with
  | nil => simp [valuesMax]
  | cons y rest =>
    simp only [List.map_cons, valuesMax]
    exact foldl_max_map_div rest y.2 m hm

/-! ## Lemmas: assorted helpers -/

/-- Looking up a present key in a dict built by mapping over the keys. -/
theorem lookup_map_keys (g : String → ℚ) (sections : Sections) (t : String)
    (h : t ∈ sections.map Prod.fst) :
    (sections.map (fun kv => (kv.1, g kv.1))).lookup t = some (g t) := by
  induction sections with
  | nil => simp at h
  | cons kv rest ih =>
    by_cases he : t = kv.1
    · have hb : (t == kv.1) = true := by simpa using he
      simp [List.lookup, hb, he]
    · have hb : (t == kv.1) = false := beq_eq_false_iff_ne.mpr he
      simp only [List.map_cons] at h
      rcases List.mem_cons.1 h with h1 | h1
      · exact absurd h1 he
      · simp [List.lookup, hb, ih h1]

/-- The squared norm of the zero vector vanishes. -/
theorem normSq_replicate_zero (n : Nat) : normSq (List.replicate n 0) = 0 := by
  induction n with
  | zero => simp [normSq, dotList]
  | succ k ih =>
    simp only [List.replicate_succ, normSq, dotList, List.zipWith_cons_cons,
      List.sum_cons] at ih ⊢
    simp [ih]

/-- A text whose token encoding is empty embeds to the defined zero vector,
and any similarity computed against it is the NaN of a `0/0` cosine. -/
theorem computeSimilarity_encode_empty (m : EmbedModel) (t1 t2 : String)
    (h : (m.encode t1).isEmpty = true) :
    getEmbedding m t1 = List.replicate 768 0 ∧ computeSimilarity m t1 t2 = SimValue.nan := by
  have he : getEmbedding m t1 = List.replicate 768 0 := by simp [getEmbedding, h]
  refine ⟨he, ?_⟩
  simp only [computeSimilarity]
  rw [he, normSq_replicate_zero]
  simp only [eq_self_iff_true, true_or, if_true]

/-- The section loop ignores headings whose stripped text is empty. -/
theorem sectionsLoop_of_whitespace (doc : PDFDocument) (l : List Heading)
    (acc : List (String × String)) (h : ∀ hd ∈ l, pyTrim hd.text = "") :
    sectionsLoop doc l acc = acc := by
  induction l generalizing acc with
  | nil => rfl
  | cons hd rest ih =>
    simp only [sectionsLoop]
    rw [if_pos (h hd (List.mem_cons_self hd rest))]
    exact ih acc (fun x hx => h x (List.mem_cons_of_mem hd hx))

/-- The key list accumulated by a `dictSet` fold: the accumulator's keys
followed by the unseen candidates in first-occurrence order. -/
theorem keys_dictSet_fold (f : String → Nat) (candidates : List String)
    (acc : List (String × Nat)) :
    (candidates.foldl (fun acc t => dictSet acc t (f t)) acc).map Prod.fst =
      acc.map Prod.fst ++ dedupSeen (acc.map Prod.fst) candidates := by
  induction candidates generalizing acc with
  | nil => simp [dedupSeen]
  | cons t rest ih =>
    simp only [List.foldl_cons, dedupSeen]
    by_cases hc : (acc.map Prod.fst).contains t = true
    · rw [if_pos hc, ih (dictSet acc t (f t)), keys_dictSet, if_pos hc]
    · rw [if_neg (by simpa using hc), ih (dictSet acc t (f t)), keys_dictSet,
        if_neg (by simpa using hc)]
      have : (acc.map Prod.fst ++ [t]) ++ dedupSeen (acc.map Prod.fst ++ [t]) rest =
          acc.map Prod.fst ++ (t :: dedupSeen (acc.map Prod.fst ++ [t]) rest) := by
        simp
      rw [this]

/-- The keys of the term-count dict are the candidates in first-seen order. -/
theorem keys_termCountsOf (text : String) (candidates : List String) :
    (termCountsOf text candidates).map Prod.fst = dedupFirst candidates := by
  simpa [termCountsOf, dedupFirst] using
    keys_dictSet_fold (fun t => pyStrCount (pyLower text) (pyLower t)) candidates []

/-- Every entry accumulated by a `dictSet` fold carries the value its key is
mapped to. -/
theorem values_dictSet_fold (f : String → Nat) (candidates : List String)
    (acc : List (String × Nat)) (hacc : ∀ e ∈ acc, e.2 = f e.1) :
    ∀ e ∈ candidates.foldl (fun acc t => dictSet acc t (f t)) acc, e.2 = f e.1 := by
  induction candidates generalizing acc with
  | nil => exact hacc
  | cons t rest ih =>
    simp only [List.foldl_cons]
    refine ih (dictSet acc t (f t)) ?_
    intro e he
    rcases mem_dictSet he with h1 | h1
    · exact hacc e h1
    · rw [h1]

/-- Every entry of the term-count dict scores its own occurrence count. -/
theorem values_termCountsOf (text : String) (candidates : List String) :
    ∀ e ∈ termCountsOf text candidates, e.2 = pyStrCount (pyLower text) (pyLower e.1) := by
  simpa [termCountsOf] using
    values_dictSet_fold (fun t => pyStrCount (pyLower text) (pyLower t)) candidates []
      (by intro e he; simp at he)

/-- A fold whose step only grows the accumulator dominates its seed. -/
theorem foldl_le_of_step {α : Type} (f : ℚ → α → ℚ) (hf : ∀ acc x, acc ≤ f acc x)
    (l : List α) (acc : ℚ) : acc ≤ l.foldl f acc := by
  induction l generalizing acc with
  | nil => simp
  | cons x xs ih =>
    simp only [List.foldl_cons]
    exact le_trans (hf acc x) (ih (f acc x))

/-- Each keyword step only grows the score. -/
theorem le_keywordStep (title text : String) (acc : ℚ) (kw : String) :
    acc ≤ keywordStep title text acc kw := by
  unfold keywordStep
  split_ifs <;> linarith

/-- The keyword score is non-negative. -/
theorem keywordScore_nonneg (title text : String) : 0 ≤ keywordScore title text :=
  foldl_le_of_step (keywordStep title text) (le_keywordStep title text) methodKeywords 0

/-- Every method-2 score is non-negative. -/
theorem method2Scores_nonneg (sections : Sections) :
    ∀ kv ∈ method2Scores sections, 0 ≤ kv.2 := by
  intro kv hkv
  unfold method2Scores at hkv
  rcases List.mem_map.1 hkv with ⟨e, he, rfl⟩
  dsimp only
  split_ifs
  · exact le_refl 0
  · exact le_min (by have := keywordScore_nonneg e.1 e.2; linarith) (by norm_num)

/-- Every pre-normalization model score is non-negative, as long as the
similarity function is. -/
theorem rawModelScores_nonneg (sim : String → String → ℚ) (sections : Sections)
    (abstract : Option String) (hsim : ∀ a b, 0 ≤ sim a b) :
    ∀ kv ∈ rawModelScores sim sections abstract, 0 ≤ kv.2 := by
  intro kv hkv
  rcases hr : resolveAbstract sections abstract with _ | a
  · simp only [rawModelScores, hr] at hkv
    exact method2Scores_nonneg sections kv hkv
  · simp only [rawModelScores, hr] at hkv
    by_cases ha : a = ""
    · rw [if_pos ha] at hkv
      exact method2Scores_nonneg sections kv hkv
    · rw [if_neg ha] at hkv
      rcases List.mem_map.1 hkv with ⟨e, he, rfl⟩
      dsimp only
      split_ifs
      · exact le_refl 0
      · exact hsim a e.2

/-- The pre-normalization score dict covers every section, so it is non-empty
whenever the sections dict is. -/
theorem rawModelScores_ne_nil (sim : String → String → ℚ) (sections : Sections)
    (abstract : Option String) (h : sections ≠ []) :
    rawModelScores sim sections abstract ≠ [] := by
  rcases hr : resolveAbstract sections abstract with _ | a
  · simpa [rawModelScores, hr, method2Scores] using h
  · by_cases ha : a = ""
    · simpa [rawModelScores, hr, ha, method2Scores] using h
    · simpa [rawModelScores, hr, ha] using h

/-! ## The claims -/

/-- C1 (amended): `extract_sections` returns the single section
`{"Document": full text}` exactly when there are zero heading candidates;
when candidates exist but every one has whitespace-only text, each is
skipped and the result is the empty mapping. -/
theorem extractSections_degenerate_headings (doc : PDFDocument) :
    (identifyPotentialHeadings (doc.pages.map Page.blocks) = [] →
      extractSections doc = [("Document", extractText doc)]) ∧
    (identifyPotentialHeadings (doc.pages.map Page.blocks) ≠ [] →
      (∀ h ∈ identifyPotentialHeadings (doc.pages.map Page.blocks), pyTrim h.text = "") →
      extractSections doc = []) := by
  constructor
  · intro h
    simp [extractSections, sortHeadings, h, sortStable]
  · intro hne hws
    have hperm := sortStable_perm headingLT (identifyPotentialHeadings (doc.pages.map Page.blocks))
    have hsne : sortHeadings (identifyPotentialHeadings (doc.pages.map Page.blocks)) ≠ [] := by
      intro h0
      apply hne
      have hl := hperm.length_eq
      rw [show sortStable headingLT (identifyPotentialHeadings (doc.pages.map Page.blocks)) =
        sortHeadings (identifyPotentialHeadings (doc.pages.map Page.blocks)) from rfl, h0] at hl
      exact List.eq_nil_of_length_eq_zero hl.symm
    have hws' : ∀ h ∈ sortHeadings (identifyPotentialHeadings (doc.pages.map Page.blocks)),
        pyTrim h.text = "" := by
      intro h hh
      exact hws h (hperm.mem_iff.1 hh)
    simp only [extractSections]
    rw [if_neg (by simpa [List.isEmpty_iff] using hsne)]
    exact sectionsLoop_of_whitespace doc _ [] hws'

/-- C1 counterexample: `docEx` has exactly one heading candidate, whose text
is whitespace-only, and `extract_sections` returns the empty mapping on it,
not the single `"Document"` section the claim requires. -/
theorem extractSections_allWhitespace_counterexample :
    identifyPotentialHeadings (docEx.pages.map Page.blocks) ≠ [] ∧
    (∀ h ∈ identifyPotentialHeadings (docEx.pages.map Page.blocks), pyTrim h.text = "") ∧
    extractSections docEx = [] ∧
    extractSections docEx ≠ [("Document", extractText docEx)] := by
  with_unfolding_all decide

/-- C1 witness: both amended branches at concrete documents. -/
theorem extractSections_degenerate_headings_witness :
    extractSections docEmpty = [("Document", extractText docEmpty)] ∧
    extractSections docEx = [] :=
  ⟨(extractSections_degenerate_headings docEmpty).1 (by with_unfolding_all decide),
   (extractSections_degenerate_headings docEx).2 (by with_unfolding_all decide)
     (by with_unfolding_all decide)⟩

/-- C3 counterexample: with a failing storage write, `add_user_feedback`
still returns `True`; the failure is not reported to the caller as the claim
requires. -/
theorem addUserFeedback_failure_counterexample :
    (addUserFeedback [] (WriteOutcome.error "disk full") "p1" "Intro" (9 / 10)).1 = true ∧
    WriteOutcome.error "disk full" ≠ WriteOutcome.ok :=
  ⟨rfl, by simp⟩

/-- C3 (amended): `add_user_feedback` always returns `True`; a storage write
failure is caught and logged inside `_save_user_feedback` and neither raised
past the boundary nor reported to the caller. -/
theorem addUserFeedback_always_true (fb : Feedback) (w : WriteOutcome)
    (paperId sectionTitle : String) (score : ℚ) :
    (addUserFeedback fb w paperId sectionTitle score).1 = true := rfl

/-- C5 counterexample: with a tokenizer that encodes the empty text to no
tokens, `compute_similarity` on the empty text is the NaN of a `0/0` cosine —
an undefined value, not a low numeric score. -/
theorem computeSimilarity_undefined_counterexample :
    computeSimilarity embEx "" "Methods section text" = SimValue.nan ∧
    (embEx.encode "").isEmpty = true :=
  ⟨(computeSimilarity_encode_empty embEx "" "Methods section text"
      (by with_unfolding_all decide)).2,
   by with_unfolding_all decide⟩

/-- C5 (amended): a text whose token encoding is empty does get the defined
zero-vector embedding and no exception is raised, but `compute_similarity`
against it then divides by a zero norm and yields NaN rather than a low
numeric score. -/
theorem computeSimilarity_empty_encoding (m : EmbedModel) (t1 t2 : String)
    (h : (m.encode t1).isEmpty = true) :
    getEmbedding m t1 = List.replicate 768 0 ∧ computeSimilarity m t1 t2 = SimValue.nan :=
  computeSimilarity_encode_empty m t1 t2 h

/-- C5 witness: the amended claim at a concrete model and texts. -/
theorem computeSimilarity_empty_encoding_witness :
    getEmbedding embEx "" = List.replicate 768 0 ∧
    computeSimilarity embEx "" "hello" = SimValue.nan :=
  computeSimilarity_empty_encoding embEx "" "hello" (by with_unfolding_all decide)

/-- C4: after `add_user_feedback(pid, t, s)` with `s ∈ [0,1]`,
`score_sections_user_feedback(pid, sections)` returns `s` for `t` (a key of
`sections`) and the neutral `0.5` for every other section without a stored
rating. -/
theorem feedback_roundtrip (fb : Feedback) (w : WriteOutcome) (paperId t : String) (s : ℚ)
    (sections : Sections) (_hs0 : 0 ≤ s) (_hs1 : s ≤ 1)
    (ht : t ∈ sections.map Prod.fst) :
    (scoreSectionsUserFeedback (addUserFeedback fb w paperId t s).2 paperId sections).lookup t
      = some s ∧
    ∀ t' ∈ sections.map Prod.fst, t' ≠ t →
      storedRating (addUserFeedback fb w paperId t s).2 paperId t' = none →
      (scoreSectionsUserFeedback (addUserFeedback fb w paperId t s).2 paperId sections).lookup t'
        = some (1 / 2) := by
  have hfb : (addUserFeedback fb w paperId t s).2 = updateFeedback fb paperId t s := rfl
  rw [hfb]
  unfold updateFeedback
  have hlook := lookup_dictSet_self fb paperId
    { sectionScores :=
        some (dictSet (((fb.lookup paperId).getD { sectionScores := none }).sectionScores.getD [])
          t s) }
  constructor
  · simp only [scoreSectionsUserFeedback, hlook]
    rw [lookup_map_keys
      (fun x =>
        (List.lookup x
            (dictSet (((List.lookup paperId fb).getD { sectionScores := none }).sectionScores.getD [])
              t s)).getD
          (1 / 2))
      sections t ht]
    rw [lookup_dictSet_self]
    simp
  · intro t' ht' hne hstored
    simp only [storedRating, hlook] at hstored
    simp only [scoreSectionsUserFeedback, hlook]
    rw [lookup_map_keys
      (fun x =>
        (List.lookup x
            (dictSet (((List.lookup paperId fb).getD { sectionScores := none }).sectionScores.getD [])
              t s)).getD
          (1 / 2))
      sections t' ht']
    rw [hstored]
    simp

/-- C4 witness: the round trip at a concrete store, paper and sections. -/
theorem feedback_roundtrip_witness :
    (scoreSectionsUserFeedback (addUserFeedback [] WriteOutcome.ok "p1" "Intro" (9 / 10)).2
        "p1" sectionsFb).lookup "Intro" = some (9 / 10) ∧
    ∀ t' ∈ sectionsFb.map Prod.fst, t' ≠ "Intro" →
      storedRating (addUserFeedback [] WriteOutcome.ok "p1" "Intro" (9 / 10)).2 "p1" t' = none →
      (scoreSectionsUserFeedback (addUserFeedback [] WriteOutcome.ok "p1" "Intro" (9 / 10)).2
          "p1" sectionsFb).lookup t' = some (1 / 2) :=
  feedback_roundtrip [] WriteOutcome.ok "p1" "Intro" (9 / 10) sectionsFb
    (by norm_num) (by norm_num) (by with_unfolding_all decide)

/-- C10: one `add_user_feedback` call changes the feedback store only at the
entry `(paper_id, section_title)`: the rating stored for any other paper or
any other section of the same paper is unchanged. -/
theorem addUserFeedback_frame (fb : Feedback) (w : WriteOutcome) (paperId title : String)
    (score : ℚ) (paperId' title' : String) (h : ¬(paperId' = paperId ∧ title' = title)) :
    storedRating (addUserFeedback fb w paperId title score).2 paperId' title' =
      storedRating fb paperId' title' := by
  have hfb : (addUserFeedback fb w paperId title score).2 =
      updateFeedback fb paperId title score := rfl
  rw [hfb]
  unfold updateFeedback storedRating
  by_cases hp : paperId' = paperId
  · subst hp
    have hti : title' ≠ title := fun he => h ⟨rfl, he⟩
    rw [lookup_dictSet_self]
    simp only []
    rw [lookup_dictSet_ne _ _ _ _ hti]
    cases hl : fb.lookup paperId' with
    | none => simp [hl, List.lookup]
    | some entry =>
      cases hsc : entry.sectionScores with
      | none => simp [hl, hsc, List.lookup]
      | some fs => simp [hl, hsc]
  · rw [lookup_dictSet_ne _ _ _ _ hp]

/-- C10 witness: the frame property at a concrete store and a disjoint key. -/
theorem addUserFeedback_frame_witness :
    storedRating
        (addUserFeedback [("p1", { sectionScores := some [("Intro", 3 / 10)] })]
          WriteOutcome.ok "p1" "Methods" (8 / 10)).2 "p1" "Intro" =
      storedRating [("p1", { sectionScores := some [("Intro", 3 / 10)] })] "p1" "Intro" :=
  addUserFeedback_frame [("p1", { sectionScores := some [("Intro", 3 / 10)] })]
    WriteOutcome.ok "p1" "Methods" (8 / 10) "p1" "Intro" (by simp)

/-- The combined entry's fallback analysis: whatever the enabled sources
contribute, the `sources` field is never empty. -/
theorem sources_of_append_ne_nil (s1 s2 : List (String × ℚ)) :
    (if (s1 ++ s2).isEmpty then
        ({ score := 1 / 2, sources := [("default", 1 / 2)] } : ScoreEntry)
      else
        { score := ((s1 ++ s2).map (fun kv => kv.2)).sum / ((s1 ++ s2).length : ℚ),
          sources := s1 ++ s2 }).sources ≠ [] := by
  by_cases h : (s1 ++ s2).isEmpty = true
  · rw [if_pos h]
    simp
  · rw [if_neg h]
    simpa [List.isEmpty_iff] using h

/-- `combineEntry` never returns an empty sources mapping. -/
theorem combineEntry_sources_ne_nil (modelScores feedbackScores : List (String × ℚ))
    (useModel useFeedback : Bool) (title : String) :
    (combineEntry modelScores feedbackScores useModel useFeedback title).sources ≠ [] :=
  sources_of_append_ne_nil _ _

/-- C7: with `use_model=True` and `use_feedback=False`, `score_sections`
never consults the feedback store, so its result is invariant under the
`paper_id` argument. -/
theorem scoreSections_paperId_invariant (sim : String → String → ℚ) (fb : Feedback)
    (sections : Sections) (abstract : Option String) (p1 p2 : String) :
    scoreSections sim fb p1 sections abstract true false =
      scoreSections sim fb p2 sections abstract true false := rfl

/-- C9: for every flag combination, `score_sections` returns exactly the
input key set (in order), and every entry's sources mapping is non-empty
(falling back to `{"default": 0.5}` when no enabled source contributed). -/
theorem scoreSections_keys_and_sources (sim : String → String → ℚ) (fb : Feedback)
    (paperId : String) (sections : Sections) (abstract : Option String)
    (useModel useFeedback : Bool) :
    (scoreSections sim fb paperId sections abstract useModel useFeedback).map Prod.fst =
      sections.map Prod.fst ∧
    ∀ e ∈ scoreSections sim fb paperId sections abstract useModel useFeedback,
      e.2.sources ≠ [] := by
  constructor
  · simp only [scoreSections, List.map_map]
    rfl
  · intro e he
    simp only [scoreSections] at he
    rcases List.mem_map.1 he with ⟨kv, hkv, rfl⟩
    exact combineEntry_sources_ne_nil _ _ _ _ _

/-- C9 witness: the invariant at a concrete call. -/
theorem scoreSections_keys_and_sources_witness :
    (scoreSections simHalf [] "p1" sectionsEx none true true).map Prod.fst =
      sectionsEx.map Prod.fst ∧
    ∀ e ∈ scoreSections simHalf [] "p1" sectionsEx none true true, e.2.sources ≠ [] :=
  scoreSections_keys_and_sources simHalf [] "p1" sectionsEx none true true

/-- C2: for a non-empty sections mapping and a non-negative similarity
function, every score returned by `score_sections_model` lies in `[0, 1]`,
and whenever some section scored above `0` before normalization the maximum
returned score is exactly `1`. -/
theorem scoreSectionsModel_normalized (sim : String → String → ℚ) (sections : Sections)
    (abstract : Option String) (hne : sections ≠ []) (hsim : ∀ a b, 0 ≤ sim a b) :
    (∀ kv ∈ scoreSectionsModel sim sections abstract, 0 ≤ kv.2 ∧ kv.2 ≤ 1) ∧
    ((∃ kv ∈ rawModelScores sim sections abstract, 0 < kv.2) →
      valuesMax (scoreSectionsModel sim sections abstract) = 1) := by
  have hraw_ne := rawModelScores_ne_nil sim sections abstract hne
  have hraw_nonneg := rawModelScores_nonneg sim sections abstract hsim
  have hmodel : scoreSectionsModel sim sections abstract =
      if 0 < valuesMax (rawModelScores sim sections abstract) then
        (rawModelScores sim sections abstract).map
          (fun kv => (kv.1, kv.2 / valuesMax (rawModelScores sim sections abstract)))
      else rawModelScores sim sections abstract := by
    simp only [scoreSectionsModel]
    rw [if_neg (by simpa [List.isEmpty_iff] using hraw_ne)]
  constructor
  · intro kv hkv
    rw [hmodel] at hkv
    by_cases hm : 0 < valuesMax (rawModelScores sim sections abstract)
    · rw [if_pos hm] at hkv
      rcases List.mem_map.1 hkv with ⟨e, he, rfl⟩
      dsimp only
      refine ⟨div_nonneg (hraw_nonneg e he) hm.le, ?_⟩
      rw [div_le_one hm]
      exact le_valuesMax he
    · rw [if_neg hm] at hkv
      have h1 := hraw_nonneg kv hkv
      have h2 : kv.2 ≤ valuesMax (rawModelScores sim sections abstract) := le_valuesMax hkv
      push_neg at hm
      exact ⟨h1, by linarith⟩
  · rintro ⟨kv, hkv, hpos⟩
    have hm : 0 < valuesMax (rawModelScores sim sections abstract) :=
      lt_of_lt_of_le hpos (le_valuesMax hkv)
    rw [hmodel, if_pos hm, valuesMax_map_div _ _ hm]
    exact div_self hm.ne'

/-- C2 witness: the normalization invariant at a concrete scorer call. -/
theorem scoreSectionsModel_normalized_witness :
    (∀ kv ∈ scoreSectionsModel simHalf sectionsEx none, 0 ≤ kv.2 ∧ kv.2 ≤ 1) ∧
    valuesMax (scoreSectionsModel simHalf sectionsEx none) = 1 := by
  have h := scoreSectionsModel_normalized simHalf sectionsEx none
    (by with_unfolding_all decide) (fun a b => by norm_num [simHalf])
  exact ⟨h.1, h.2 (by with_unfolding_all decide)⟩

/-- C6: `rank_terms_by_importance` returns at most `top_n` entries, each
scored by the raw case-insensitive substring count of its term in the text,
sorted non-increasingly by that count, with ties kept in first-seen candidate
order (the entries of any one count form a subsequence of the deduplicated
candidate list). -/
theorem rankTermsByImportance_spec (text : String) (candidateTerms : List String) (topN : Nat) :
    (rankTermsByImportance text candidateTerms topN).length ≤ topN ∧
    (∀ e ∈ rankTermsByImportance text candidateTerms topN,
      e.score = pyStrCount (pyLower text) (pyLower e.term)) ∧
    (rankTermsByImportance text candidateTerms topN).Pairwise
      (fun a b => b.score ≤ a.score) ∧
    ∀ c : Nat,
      (((rankTermsByImportance text candidateTerms topN).filter
          (fun e => decide (e.score = c))).map RankedTerm.term).Sublist
        (dedupFirst candidateTerms) := by
  refine ⟨?_, ?_, ?_, ?_⟩
  · simp only [rankTermsByImportance, mostCommon, List.length_map]
    rw [List.length_take]
    exact min_le_left _ _
  · intro e he
    simp only [rankTermsByImportance] at he
    rcases List.mem_map.1 he with ⟨tc, htc, rfl⟩
    have h1 : tc ∈ sortStable cntLT (termCountsOf text candidateTerms) :=
      (List.take_sublist _ _).subset htc
    have h2 : tc ∈ termCountsOf text candidateTerms :=
      (sortStable_perm cntLT (termCountsOf text candidateTerms)).mem_iff.1 h1
    exact values_termCountsOf text candidateTerms tc h2
  · have hsorted := pairwise_sortStable cntLT_trans cntLT_asymm (termCountsOf text candidateTerms)
    have htake : (mostCommon topN (termCountsOf text candidateTerms)).Pairwise
        (fun a b => cntLT b a = false) :=
      List.Pairwise.sublist (List.take_sublist _ _) hsorted
    simp only [rankTermsByImportance]
    rw [List.pairwise_map]
    refine htake.imp ?_
    intro a b h
    simp only [cntLT, decide_eq_false_iff_not, not_lt] at h
    exact h
  · intro c
    have h1 : ((rankTermsByImportance text candidateTerms topN).filter
        (fun e => decide (e.score = c))).map RankedTerm.term =
        ((mostCommon topN (termCountsOf text candidateTerms)).filter
          (fun tc => decide (tc.2 = c))).map Prod.fst := by
      simp only [rankTermsByImportance, List.filter_map, List.map_map]
      rfl
    have h5 : ((mostCommon topN (termCountsOf text candidateTerms)).filter
        (fun tc => decide (tc.2 = c))).Sublist (termCountsOf text candidateTerms) := by
      have hmid : (((termCountsOf text candidateTerms).filter
          (fun tc => decide (tc.2 = c)))).Sublist (termCountsOf text candidateTerms) :=
        List.filter_sublist _
      refine List.Sublist.trans ?_ hmid
      rw [← filter_sortStable_cnt c (termCountsOf text candidateTerms)]
      exact (List.take_sublist _ _).filter _
    rw [h1, ← keys_termCountsOf text candidateTerms]
    exact h5.map Prod.fst

/-- C6 witness: the ranking contract at a concrete text and candidate list. -/
theorem rankTermsByImportance_spec_witness :
    (rankTermsByImportance "alpha beta alpha gamma" ["beta", "alpha", "delta", "Beta"] 3).length
        ≤ 3 ∧
    (∀ e ∈ rankTermsByImportance "alpha beta alpha gamma" ["beta", "alpha", "delta", "Beta"] 3,
      e.score = pyStrCount (pyLower "alpha beta alpha gamma") (pyLower e.term)) ∧
    (rankTermsByImportance "alpha beta alpha gamma" ["beta", "alpha", "delta", "Beta"] 3).Pairwise
      (fun a b => b.score ≤ a.score) ∧
    ∀ c : Nat,
      (((rankTermsByImportance "alpha beta alpha gamma" ["beta", "alpha", "delta", "Beta"]
            3).filter (fun e => decide (e.score = c))).map RankedTerm.term).Sublist
        (dedupFirst ["beta", "alpha", "delta", "Beta"]) :=
  rankTermsByImportance_spec "alpha beta alpha gamma" ["beta", "alpha", "delta", "Beta"] 3

/-- C8 (amended): `get_important_sentences` returns the full (length-filtered)
sentence list unchanged — without the under-5-word filter — whenever there are
at most `top_n` sentences; only in the ranking branch are sentences under five
words discarded, so there every returned sentence has at least five words. -/
theorem getImportantSentences_spec (sim : String → String → ℚ) (text : String) (topN : Nat) :
    ((sentencesOf text).length ≤ topN →
      getImportantSentences sim text topN = sentencesOf text) ∧
    (topN < (sentencesOf text).length →
      ∀ s ∈ getImportantSentences sim text topN, 5 ≤ (pyWords s).length) := by
  constructor
  · intro h
    simp only [getImportantSentences]
    rw [if_pos h]
  · intro h s hs
    simp only [getImportantSentences] at hs
    rw [if_neg (not_le.mpr h)] at hs
    rcases List.mem_map.1 hs with ⟨pair, hpair, rfl⟩
    have h1 : pair ∈ sortStable simLT
        (((sentencesOf text).filter (fun s => decide (5 ≤ (pyWords s).length))).map
          (fun s => (s, sim (pyJoin " " (sentencesOf text)) s))) :=
      (List.take_sublist _ _).subset hpair
    have h2 := (sortStable_perm simLT _).mem_iff.1 h1
    rcases List.mem_map.1 h2 with ⟨sent, hsent, rfl⟩
    have h3 := (List.mem_filter.1 hsent).2
    simpa using h3

/-- C8 counterexample: two sentences over ten characters but under five words
each; with `top_n = 5` the code returns both verbatim, so the under-5-word
filter is not applied in the small-input branch. -/
theorem getImportantSentences_counterexample :
    getImportantSentences simZero "abcdefghijkl. mnopqrstuvwxyz." 5 =
      ["abcdefghijkl", "mnopqrstuvwxyz"] ∧
    (pyWords "abcdefghijkl").length < 5 := by
  with_unfolding_all decide

/-- C8 witness: both amended branches at concrete texts. -/
theorem getImportantSentences_spec_witness :
    getImportantSentences simZero "abcdefghijkl. mnopqrstuvwxyz." 9 =
      sentencesOf "abcdefghijkl. mnopqrstuvwxyz." ∧
    ∀ s ∈ getImportantSentences simZero
        "The cat sat on the mat today fine. The dog ran over the hill quickly. Another long sentence with many words here."
        1,
      5 ≤ (pyWords s).length :=
  ⟨(getImportantSentences_spec simZero "abcdefghijkl. mnopqrstuvwxyz." 9).1
      (by with_unfolding_all decide),
   (getImportantSentences_spec simZero
      "The cat sat on the mat today fine. The dog ran over the hill quickly. Another long sentence with many words here."
      1).2 (by with_unfolding_all decide)⟩
